import Mathlib

/-!
Verification of the nested-comment assembly and moderation workflow of the
blog platform (serverless API in `netlify/functions/api.js`, schema in
`migrations/schema.sql`, admin client in the admin functionality script).

Modelling conventions:
* Database UUIDs are modelled as `Nat`.  UUID strings are always truthy in
  JavaScript, so the JS truthiness tests `if (comment.parent_id)`,
  `parent_id || null` and `user_id ? 'approved' : 'pending'` are modelled as
  `Option.isSome` tests.
* `created_at` ordering: comment rows are kept in insertion order inside the
  store, and ids are assigned from a monotone counter, so the SQL
  `ORDER BY c.created_at ASC` is the stored order.
* A JSON body field that is absent or `null` is `Option.none`.
* The one external-library behaviour involved, `express-validator`'s
  `isEmail`, is abstracted by the executable syntactic check `emailValid`
  below; everything the theorems use about it is only whether it holds or
  fails, never its fine structure.
-/

namespace Blog

/-- Comment lifecycle status, from the `CHECK (status IN ('pending',
'approved', 'spam', 'deleted'))` constraint of `migrations/schema.sql`. -/
inductive CStatus where
  | pending
  | approved
  | spam
  | deleted
deriving DecidableEq, Repr

/-- One row of the `comments` table (`migrations/schema.sql`), with the
columns the handlers read.  Timestamps are dropped: no handler branches on
them (ordering is the stored order, see the header note). -/
structure Comment where
  id : Nat
  post_id : Nat
  parent_id : Option Nat
  author_name : String
  author_email : Option String
  author_url : Option String
  content : String
  status : CStatus
  user_id : Option Nat
deriving DecidableEq, Repr

/-- One row of the `blog_posts` table, restricted to the columns the comment
endpoints read (`id` and `slug`; the handlers never filter on post status). -/
structure Post where
  id : Nat
  slug : String
deriving DecidableEq, Repr

/-- The database state seen by the comment endpoints: the `blog_posts` rows,
the ids of the `users` rows (only the foreign key on `comments.user_id`
looks at them), the `comments` rows in creation order, and the id counter
standing in for `uuid_generate_v4()`. -/
structure DB where
  posts : List Post
  users : List Nat
  comments : List Comment
  nextId : Nat
deriving Repr

/-! ## Tree Assembler

Embedding of the nested-structure build of
`GET /api/blog/posts/:postId/comments` (`netlify/functions/api.js`):

```
const commentsMap = new Map();
const rootComments = [];
result.rows.forEach(comment => {
  commentsMap.set(comment.id, { ...comment, replies: [] });
});
result.rows.forEach(comment => {
  const commentObj = commentsMap.get(comment.id);
  if (comment.parent_id) {
    const parent = commentsMap.get(comment.parent_id);
    if (parent) { parent.replies.push(commentObj); }
  } else {
    rootComments.push(commentObj);
  }
});
res.json(rootComments);
```

The map nodes are mutated in place and `rootComments` holds references to
them, so the serialized output is determined by the *final* contents of the
per-node `replies` arrays.  The embedding therefore records, per node id,
the list of reply ids accumulated by the second pass (`BuildSt`), and then
materializes the node structure the serializer walks (`expandId`).  The
recursion fuel `rows.length + 1` is enough to materialize everything
reachable from a root: with distinct ids a parent chain never repeats a
comment, so reachable depth is at most `rows.length`. -/

/-- Ids present as keys of `commentsMap` after the first pass. -/
def rowIds (rows : List Comment) : List Nat := rows.map (·.id)

/-- State of the second pass: per node id the reply ids pushed onto that
node so far, and the root id list. -/
structure BuildSt where
  replies : Nat → List Nat
  roots : List Nat

/-- Empty second-pass state. -/
def emptySt : BuildSt := ⟨fun _ => [], []⟩

/-- One iteration of the second pass over one comment row.  `keys` is the
key set of `commentsMap` (all row ids — the first pass runs to completion
before the second starts). -/
def secondPass (keys : List Nat) (st : BuildSt) (c : Comment) : BuildSt :=
  match c.parent_id with
  | some p =>
      if p ∈ keys then
        { st with replies := fun q => if q = p then st.replies q ++ [c.id] else st.replies q }
      else st
  | none => { st with roots := st.roots ++ [c.id] }

/-- Final second-pass state for a row list. -/
def buildSt (rows : List Comment) : BuildSt :=
  rows.foldl (secondPass (rowIds rows)) emptySt

/-- `commentsMap.get i`: `Map.set` overwrites, so the node content is the
last row with that id. -/
def mapGet (rows : List Comment) (i : Nat) : Option Comment :=
  rows.reverse.find? (fun c => c.id == i)

/-- A serialized comment node: the row plus its nested replies. -/
inductive CNode where
  | mk (comment : Comment) (replies : List CNode)

/-- The row carried by a node. -/
def CNode.comment : CNode → Comment
  | .mk c _ => c

/-- The nested replies of a node. -/
def CNode.replies : CNode → List CNode
  | .mk _ rs => rs

/-- Materialize the node of id `i` from the final second-pass state,
expanding at most `fuel` levels. -/
def expandId (rows : List Comment) (st : BuildSt) : Nat → Nat → Option CNode
  | 0, _ => none
  | fuel + 1, i =>
      (mapGet rows i).map fun c =>
        CNode.mk c ((st.replies i).filterMap (expandId rows st fuel))

/-- The whole tree build of the read endpoint: flat approved rows in, forest
of root nodes out. -/
def buildCommentTree (rows : List Comment) : List CNode :=
  (buildSt rows).roots.filterMap (expandId rows (buildSt rows) (rows.length + 1))

mutual

/-- Whether a node or any of its descendants carries the id `i`. -/
def nodeHas (i : Nat) : CNode → Bool
  | .mk c rs => c.id == i || anyNodeHas i rs

/-- Whether any node of the list or of their descendants carries id `i`. -/
def anyNodeHas (i : Nat) : List CNode → Bool
  | [] => false
  | n :: rs => nodeHas i n || anyNodeHas i rs

end

/-- Whether the assembled forest contains a node of id `i` anywhere. -/
def forestHas (rows : List Comment) (i : Nat) : Bool :=
  anyNodeHas i (buildCommentTree rows)

/-- The ids of the direct replies of a node. -/
def CNode.repliesIds : CNode → List Nat
  | .mk _ rs => rs.map fun m => m.comment.id

mutual

/-- Every node of a tree: the node itself and, recursively, its replies. -/
def CNode.allNodes : CNode → List CNode
  | .mk c rs => .mk c rs :: allNodesList rs

/-- Every node of a forest. -/
def allNodesList : List CNode → List CNode
  | [] => []
  | n :: rs => n.allNodes ++ allNodesList rs

end

/-! ## HTTP responses -/

/-- The responses the comment endpoints produce.  `ok` is a 200 carrying the
assembled forest, `created` a 201 carrying the inserted row, `okComment` a
200 carrying an updated row, `okSuccess` the 200 `{success: true}` body of
the admin delete, and `err` a 4xx/5xx with the handler's message string. -/
inductive Resp where
  | ok (forest : List CNode)
  | created (row : Comment)
  | okComment (row : Comment)
  | okSuccess
  | err (code : Nat) (msg : String)

/-- The `:postId` path parameter as classified by the handlers' `isUUID`
regex test: a UUID-shaped value is used directly as a post id, anything
else is treated as a slug. -/
inductive PostRef where
  | byId (i : Nat)
  | bySlug (s : String)

/-! ## Read Endpoint: GET /api/blog/posts/:postId/comments -/

/-- The slug lookup `SELECT id FROM blog_posts WHERE slug = $1`. -/
def findPostBySlug (db : DB) (s : String) : Option Post :=
  db.posts.find? fun p => p.slug == s

/-- The read query: approved comments of the post, in `created_at` (stored)
order.  The joined `users` columns only decorate the row and are dropped. -/
def approvedRows (db : DB) (pid : Nat) : List Comment :=
  db.comments.filter fun c => c.post_id == pid && c.status == CStatus.approved

/-- The read endpoint.  For a UUID-shaped reference the handler uses the id
without checking that the post exists; only the slug branch can 404. -/
def getComments (db : DB) (ref : PostRef) : Resp :=
  match ref with
  | .byId i => Resp.ok (buildCommentTree (approvedRows db i))
  | .bySlug s =>
      match findPostBySlug db s with
      | none => Resp.err 404 "Post not found"
      | some p => Resp.ok (buildCommentTree (approvedRows db p.id))

/-! ## Submission Handler: POST /api/blog/posts/:postId/comments -/

/-- Whitespace trim of the `trim()` sanitizer, written over the character
list so it evaluates during proofs. -/
def trimStr (s : String) : String :=
  ⟨((s.data.dropWhile Char.isWhitespace).reverse.dropWhile Char.isWhitespace).reverse⟩

/-- Syntactic stand-in for `express-validator`'s `isEmail` (external
library code): exactly one `@` separating a nonempty local part from a
domain that contains an inner dot. -/
def emailValid (s : String) : Bool :=
  let cs := s.data
  let l := cs.takeWhile fun c => !(c == '@')
  let d := (cs.dropWhile fun c => !(c == '@')).drop 1
  cs.count '@' == 1 && !l.isEmpty && !d.isEmpty
    && d.contains '.' && !(d.head? == some '.') && !(d.getLast? == some '.')

/-- The request body of a submission; `none` stands for an absent or `null`
JSON field. -/
structure ReqBody where
  author_name : Option String
  author_email : Option String
  author_url : Option String
  content : Option String
  parent_id : Option Nat
  user_id : Option Nat
deriving DecidableEq, Repr

/-- The validator array of the submission route:
`body('author_name').notEmpty().trim()`,
`body('author_email').optional().isEmail().normalizeEmail()`,
`body('content').notEmpty().trim()`.  Chain items run left to right, so
`notEmpty` tests the *raw* value and the `trim` sanitizer only affects the
value later stored; `optional()` skips a field that is not supplied. -/
def validComment (b : ReqBody) : Bool :=
  (match b.author_name with | some s => !s.isEmpty | none => false)
    && (match b.author_email with | some s => emailValid s | none => true)
    && (match b.content with | some s => !s.isEmpty | none => false)

/-- Post resolution of the submission route: a slug is looked up; a
UUID-shaped id is checked for existence (`SELECT id FROM blog_posts WHERE
id = $1`). -/
def resolvePost (db : DB) (ref : PostRef) : Option Nat :=
  match ref with
  | .byId i => if db.posts.any (fun p => p.id == i) then some i else none
  | .bySlug s => (findPostBySlug db s).map (·.id)

/-- The `parent_id REFERENCES comments(id)` foreign key of the insert:
satisfied when no parent is supplied or when *some* comment row (on any
post) has that id. -/
def parentFkOk (db : DB) (b : ReqBody) : Bool :=
  match b.parent_id with
  | some p => db.comments.any fun c => c.id == p
  | none => true

/-- The `user_id REFERENCES users(id)` foreign key of the insert. -/
def userFkOk (db : DB) (b : ReqBody) : Bool :=
  match b.user_id with
  | some u => db.users.contains u
  | none => true

/-- The row the `INSERT INTO comments ... RETURNING *` produces.  `trim`
was applied to `author_name` and `content` by the sanitizers; the
`parent_id || null` and `author_* || null` defaults collapse to the
`Option` value (UUID strings are never falsy). -/
def insertedRow (db : DB) (pid : Nat) (b : ReqBody) : Comment :=
  { id := db.nextId
    post_id := pid
    parent_id := b.parent_id
    author_name := trimStr (b.author_name.getD "")
    author_email := b.author_email
    author_url := b.author_url
    content := trimStr (b.content.getD "")
    status := if b.user_id.isSome then CStatus.approved else CStatus.pending
    user_id := b.user_id }

/-- The submission handler.  Validation failures 400 with the fixed message
`Invalid input`; an unresolved post 404s; a violated foreign key makes the
insert throw, which the catch-all turns into a 500 with nothing persisted.
Nothing anywhere compares the parent's post to the resolved post, and
nothing authenticates the supplied `user_id`. -/
def postComment (db : DB) (ref : PostRef) (b : ReqBody) : Resp × DB :=
  if !validComment b then (Resp.err 400 "Invalid input", db)
  else
    match resolvePost db ref with
    | none => (Resp.err 404 "Post not found", db)
    | some pid =>
        if parentFkOk db b && userFkOk db b then
          let row := insertedRow db pid b
          (Resp.created row,
            { db with comments := db.comments ++ [row], nextId := db.nextId + 1 })
        else (Resp.err 500 "Internal server error", db)

/-! ## Moderation: PUT /api/admin/comments/:id and DELETE /api/admin/comments/:id -/

/-- The status strings the `CHECK` constraint of the `comments` table
admits, mapped to the modelled status. -/
def parseStatus (s : String) : Option CStatus :=
  if s = "pending" then some CStatus.pending
  else if s = "approved" then some CStatus.approved
  else if s = "spam" then some CStatus.spam
  else if s = "deleted" then some CStatus.deleted
  else none

/-- Effect of `UPDATE comments SET status = $1 WHERE id = $2` on one row. -/
def setStatusRow (i : Nat) (st : CStatus) (d : Comment) : Comment :=
  if d.id == i then { d with status := st } else d

/-- The admin status-update endpoint: `UPDATE comments SET status = $1
WHERE id = $2 RETURNING *`.  Whatever status the body carries is written.
When no row matches the id the statement updates nothing and the empty
`RETURNING` set 404s; when a row is updated the table's `CHECK` constraint
applies, a violation throwing and being caught as a 500. -/
def updateCommentStatus (db : DB) (i : Nat) (status : String) : Resp × DB :=
  match db.comments.find? (fun c => c.id == i) with
  | none => (Resp.err 404 "Comment not found", db)
  | some c =>
      match parseStatus status with
      | none => (Resp.err 500 "Internal server error", db)
      | some st =>
          (Resp.okComment { c with status := st },
            { db with comments := db.comments.map (setStatusRow i st) })

/-- The admin client's approve action (admin functionality script):
`api.request('/api/admin/comments/' + commentId, 'PUT', { status: 'approved' })`. -/
def approveComment (db : DB) (i : Nat) : Resp × DB :=
  updateCommentStatus db i "approved"

/-- One round of the `ON DELETE CASCADE` propagation on
`comments.parent_id`: every not-yet-dead row whose parent is dead dies. -/
def deadStep (cs : List Comment) (dead : List Nat) : List Nat :=
  dead ++ (cs.filter fun c =>
    !dead.contains c.id &&
      (match c.parent_id with | some p => dead.contains p | none => false)).map (·.id)

/-- The set of ids removed by `DELETE FROM comments WHERE id = $1` under
the cascading foreign key: the closure of `{i}` under the child relation.
`cs.length + 1` rounds reach the fixed point (each earlier round adds at
least one of the at most `cs.length` ids). -/
def deadClosure (cs : List Comment) (i : Nat) : List Nat :=
  (deadStep cs)^[cs.length + 1] [i]

/-- The admin delete endpoint.  The handler never inspects the row count:
it answers `{success: true}` whether or not the id exists.  The storage
layer removes the row and, through the cascade, every descendant. -/
def deleteComment (db : DB) (i : Nat) : Resp × DB :=
  (Resp.okSuccess,
    { db with comments := db.comments.filter fun c => !(deadClosure db.comments i).contains c.id })

/-- The spec's notion of the deletion target and its transitive descendant
replies, as a relation on ids: `root` itself, and the id of any comment
whose parent is already reached. -/
inductive ReachesId (cs : List Comment) (root : Nat) : Nat → Prop where
  | start : ReachesId cs root root
  | step (p : Nat) (c : Comment) :
      ReachesId cs root p → c ∈ cs → c.parent_id = some p → ReachesId cs root c.id

/-! ## Moderation operation sequences -/

/-- The moderation operations: the admin client's approve and delete
actions, and status updates to `spam`/`deleted` through the same update
endpoint.  (The update endpoint itself also accepts `pending` — that is
exactly the divergence recorded for the state-machine claim.) -/
inductive ModOp where
  | approve (i : Nat)
  | markSpam (i : Nat)
  | markDeleted (i : Nat)
  | remove (i : Nat)
deriving DecidableEq, Repr

/-- State reached after one moderation operation. -/
def applyOp (db : DB) : ModOp → DB
  | .approve i => (updateCommentStatus db i "approved").2
  | .markSpam i => (updateCommentStatus db i "spam").2
  | .markDeleted i => (updateCommentStatus db i "deleted").2
  | .remove i => (deleteComment db i).2

/-- State reached after a sequence of moderation operations. -/
def applyOps (db : DB) (ops : List ModOp) : DB :=
  ops.foldl applyOp db

/-! ## Concrete sample data, used by witnesses and counterexamples -/

/-- A concrete approved comment on post 1. -/
def sample (i : Nat) (pid : Option Nat) : Comment :=
  ⟨i, 1, pid, "Al", none, none, "hi", CStatus.approved, none⟩

/-- The spec's scenario rows: comment 3's parent (99) does not exist. -/
def scenarioRows : List Comment :=
  [sample 1 none, sample 2 (some 1), sample 3 (some 99)]

/-- Rows where every non-null parent resolves; two roots. -/
def resolvedRows : List Comment :=
  [sample 1 none, sample 2 (some 1), sample 4 none]

/-- Rows with a self-referencing comment. -/
def selfRows : List Comment :=
  [sample 1 none, sample 2 (some 2)]

/-- A sample database: posts 1 and 2, user 7, a three-deep comment chain
1 ← 2 ← 3 on post 1 plus the root comment 4. -/
def sampleDb : DB :=
  ⟨[⟨1, "hello-world"⟩, ⟨2, "second-post"⟩], [7],
    [sample 1 none, sample 2 (some 1), sample 3 (some 2), sample 4 none], 10⟩

/-- A valid anonymous submission body. -/
def sampleBody : ReqBody :=
  ⟨some "Al", none, none, some "hi", none, none⟩

/-! ## Lemmas about the second pass -/

theorem roots_foldl (keys : List Nat) (rows : List Comment) (st : BuildSt) :
    (rows.foldl (secondPass keys) st).roots
      = st.roots ++ (rows.filter fun c => c.parent_id.isNone).map (·.id) := by
  induction rows generalizing st with
  | nil => simp
  | cons c rows ih =>
      rw [List.foldl_cons, ih, List.filter_cons]
      cases hp : c.parent_id with
      | none => simp [secondPass, hp]
      | some p =>
          by_cases hm : p ∈ keys <;> simp [secondPass, hp, hm]

theorem replies_foldl (keys : List Nat) (rows : List Comment) (st : BuildSt) (q : Nat) :
    (rows.foldl (secondPass keys) st).replies q
      = st.replies q
          ++ if q ∈ keys then (rows.filter fun c => c.parent_id == some q).map (·.id) else [] := by
  induction rows generalizing st with
  | nil => simp
  | cons c rows ih =>
      rw [List.foldl_cons, ih, List.filter_cons]
      cases hp : c.parent_id with
      | none => simp [secondPass, hp]
      | some p =>
          by_cases hqp : q = p
          · subst hqp
            by_cases hm : q ∈ keys <;> simp [secondPass, hp, hm]
          · have hne : ((some p == some q) = false) := by
              simp [beq_iff_eq]
              exact fun h => hqp h.symm
            by_cases hm : p ∈ keys <;>
              simp [secondPass, hp, hm, hne, hqp]

theorem buildSt_roots (rows : List Comment) :
    (buildSt rows).roots = (rows.filter fun c => c.parent_id.isNone).map (·.id) := by
  have h := roots_foldl (rowIds rows) rows emptySt
  simpa [buildSt, emptySt] using h

theorem buildSt_replies (rows : List Comment) (q : Nat) :
    (buildSt rows).replies q
      = if q ∈ rowIds rows then (rows.filter fun c => c.parent_id == some q).map (·.id)
        else [] := by
  have h := replies_foldl (rowIds rows) rows emptySt q
  simpa [buildSt, emptySt] using h

theorem mem_buildSt_roots {rows : List Comment} {j : Nat}
    (h : j ∈ (buildSt rows).roots) :
    ∃ c ∈ rows, c.id = j ∧ c.parent_id = none := by
  rw [buildSt_roots] at h
  rcases List.mem_map.mp h with ⟨c, hc, hcj⟩
  rcases List.mem_filter.mp hc with ⟨hmem, hnone⟩
  exact ⟨c, hmem, hcj, Option.isNone_iff_eq_none.mp hnone⟩

theorem mem_buildSt_replies {rows : List Comment} {q j : Nat}
    (h : j ∈ (buildSt rows).replies q) :
    ∃ c ∈ rows, c.id = j ∧ c.parent_id = some q ∧ q ∈ rowIds rows := by
  rw [buildSt_replies] at h
  by_cases hq : q ∈ rowIds rows
  · rw [if_pos hq] at h
    rcases List.mem_map.mp h with ⟨c, hc, hcj⟩
    rcases List.mem_filter.mp hc with ⟨hmem, hpar⟩
    exact ⟨c, hmem, hcj, by simpa [beq_iff_eq] using hpar, hq⟩
  · rw [if_neg hq] at h
    simp at h

theorem buildSt_replies_sublist (rows : List Comment) (q : Nat) :
    ((buildSt rows).replies q).Sublist
      ((rows.filter fun c => c.parent_id == some q).map (·.id)) := by
  rw [buildSt_replies]
  by_cases hq : q ∈ rowIds rows
  · rw [if_pos hq]
  · rw [if_neg hq]; exact List.nil_sublist _

/-! ## Lemmas about the map and the materialization -/

theorem mapGet_eq_id {rows : List Comment} {i : Nat} {c : Comment}
    (h : mapGet rows i = some c) : c.id = i ∧ c ∈ rows := by
  refine ⟨?_, ?_⟩
  · have := List.find?_some h
    simpa [beq_iff_eq] using this
  · have := List.mem_of_find?_eq_some h
    exact List.mem_reverse.mp this

theorem mapGet_isSome {rows : List Comment} {i : Nat} (h : i ∈ rowIds rows) :
    (mapGet rows i).isSome = true := by
  rcases List.mem_map.mp h with ⟨c, hc, hci⟩
  rw [mapGet, List.find?_isSome]
  exact ⟨c, List.mem_reverse.mpr hc, by simpa [beq_iff_eq] using hci⟩

theorem expandId_comment_id {rows : List Comment} {st : BuildSt} {fuel i : Nat} {n : CNode}
    (h : expandId rows st fuel i = some n) : n.comment.id = i := by
  cases fuel with
  | zero => simp [expandId] at h
  | succ fuel =>
      rw [expandId] at h
      rcases Option.map_eq_some'.mp h with ⟨c, hc, hn⟩
      rw [← hn]
      exact (mapGet_eq_id hc).1

theorem expandId_isSome {rows : List Comment} {st : BuildSt} {fuel i : Nat}
    (h : i ∈ rowIds rows) : (expandId rows st (fuel + 1) i).isSome = true := by
  rw [expandId]
  rcases Option.isSome_iff_exists.mp (mapGet_isSome h) with ⟨c, hc⟩
  simp [hc]

theorem length_filterMap_of_isSome {α β : Type} (l : List α) (f : α → Option β)
    (h : ∀ a ∈ l, (f a).isSome = true) : (l.filterMap f).length = l.length := by
  induction l with
  | nil => simp
  | cons a l ih =>
      rcases Option.isSome_iff_exists.mp (h a (List.mem_cons_self a l)) with ⟨b, hb⟩
      rw [List.filterMap_cons, hb, List.length_cons, List.length_cons,
        ih fun x hx => h x (List.mem_cons_of_mem a hx)]

theorem filterMap_map_eq {α β : Type} (l : List α) (f : α → Option β) (g : β → α)
    (hs : ∀ a ∈ l, (f a).isSome = true)
    (h : ∀ a ∈ l, ∀ b, f a = some b → g b = a) :
    (l.filterMap f).map g = l := by
  induction l with
  | nil => simp
  | cons a l ih =>
      rcases Option.isSome_iff_exists.mp (hs a (List.mem_cons_self a l)) with ⟨b, hb⟩
      rw [List.filterMap_cons, hb, List.map_cons,
        h a (List.mem_cons_self a l) b hb,
        ih (fun x hx => hs x (List.mem_cons_of_mem a hx))
          (fun x hx => h x (List.mem_cons_of_mem a hx))]

theorem filterMap_map_sublist {α β : Type} (l : List α) (f : α → Option β) (g : β → α)
    (h : ∀ a ∈ l, ∀ b, f a = some b → g b = a) :
    ((l.filterMap f).map g).Sublist l := by
  induction l with
  | nil => simp
  | cons a l ih =>
      rw [List.filterMap_cons]
      cases hb : f a with
      | none =>
          exact (ih fun x hx => h x (List.mem_cons_of_mem a hx)).cons a
      | some b =>
          rw [List.map_cons, h a (List.mem_cons_self a l) b hb]
          exact (ih fun x hx => h x (List.mem_cons_of_mem a hx)).cons₂ a

theorem anyNodeHas_eq_false {i : Nat} {L : List CNode}
    (h : ∀ n ∈ L, nodeHas i n = false) : anyNodeHas i L = false := by
  induction L with
  | nil => rfl
  | cons n L ih =>
      rw [anyNodeHas, h n (List.mem_cons_self n L),
        ih fun m hm => h m (List.mem_cons_of_mem n hm)]
      rfl

theorem mem_allNodesList {m : CNode} {L : List CNode} :
    m ∈ allNodesList L ↔ ∃ n ∈ L, m ∈ n.allNodes := by
  induction L with
  | nil => simp [allNodesList]
  | cons n L ih =>
      rw [allNodesList, List.mem_append, ih]
      constructor
      · rintro (h | ⟨n', hn', hm⟩)
        · exact ⟨n, List.mem_cons_self n L, h⟩
        · exact ⟨n', List.mem_cons_of_mem n hn', hm⟩
      · rintro ⟨n', hn', hm⟩
        rcases List.mem_cons.mp hn' with rfl | hn'
        · exact Or.inl hm
        · exact Or.inr ⟨n', hn', hm⟩

theorem expand_no_bad {rows : List Comment} {st : BuildSt} {bad : Nat}
    (hrep : ∀ q, q ≠ bad → bad ∉ st.replies q) :
    ∀ fuel i, i ≠ bad → ∀ n, expandId rows st fuel i = some n → nodeHas bad n = false := by
  intro fuel
  induction fuel with
  | zero => intro i _ n h; simp [expandId] at h
  | succ fuel ih =>
      intro i hi n h
      rw [expandId] at h
      rcases Option.map_eq_some'.mp h with ⟨c, hc, hn⟩
      have hcid : c.id = i := (mapGet_eq_id hc).1
      rw [← hn, nodeHas]
      have hhead : (c.id == bad) = false := by
        simp [beq_iff_eq, hcid]
        exact hi
      rw [hhead]
      have htail : anyNodeHas bad ((st.replies i).filterMap (expandId rows st fuel)) = false := by
        apply anyNodeHas_eq_false
        intro n' hn'
        rcases List.mem_filterMap.mp hn' with ⟨j, hj, hjn⟩
        have hjbad : j ≠ bad := fun hjb => hrep i hi (hjb ▸ hj)
        exact ih j hjbad n' hjn
      rw [htail]
      rfl

theorem forestHas_eq_false {rows : List Comment} {bad : Nat}
    (hroot : bad ∉ (buildSt rows).roots)
    (hrep : ∀ q, q ≠ bad → bad ∉ (buildSt rows).replies q) :
    forestHas rows bad = false := by
  rw [forestHas, buildCommentTree]
  apply anyNodeHas_eq_false
  intro n hn
  rcases List.mem_filterMap.mp hn with ⟨j, hj, hjn⟩
  have hjbad : j ≠ bad := fun hjb => hroot (hjb ▸ hj)
  exact expand_no_bad hrep _ j hjbad n hjn

theorem id_inj {rows : List Comment} (hnd : (rowIds rows).Nodup)
    {c d : Comment} (hc : c ∈ rows) (hd : d ∈ rows) (h : c.id = d.id) : c = d :=
  List.inj_on_of_nodup_map hnd hc hd h

theorem expand_allNodes_replies {rows : List Comment} {st : BuildSt} :
    ∀ fuel i n, expandId rows st fuel i = some n →
      ∀ m ∈ n.allNodes, (m.repliesIds).Sublist (st.replies m.comment.id) := by
  intro fuel
  induction fuel with
  | zero => intro i n h; simp [expandId] at h
  | succ fuel ih =>
      intro i n h m hm
      rw [expandId] at h
      rcases Option.map_eq_some'.mp h with ⟨c, hc, hn⟩
      rw [← hn] at hm
      rw [CNode.allNodes] at hm
      rcases List.mem_cons.mp hm with rfl | hm
      · have hcid : c.id = i := (mapGet_eq_id hc).1
        rw [CNode.repliesIds, CNode.comment, hcid]
        exact filterMap_map_sublist (st.replies i) (expandId rows st fuel) _
          fun j _ n' hn' => expandId_comment_id hn'
      · rcases mem_allNodesList.mp hm with ⟨n', hn', hmn'⟩
        rcases List.mem_filterMap.mp hn' with ⟨j, _, hjn'⟩
        exact ih j n' hjn' m hmn'

/-! ## Claim theorems for the Tree Assembler -/

/-- C1: on a flat list of comments with distinct ids, the tree build
returns exactly one root node per null-parent comment whenever every
non-null `parent_id` resolves within the list, and a comment whose
`parent_id` does not resolve appears nowhere in the forest, neither as a
root nor under any node. -/
theorem assemble_root_count_and_orphan_drop (rows : List Comment)
    (hnd : (rowIds rows).Nodup) :
    ((∀ c ∈ rows, ∀ p, c.parent_id = some p → p ∈ rowIds rows) →
        (buildCommentTree rows).length
          = (rows.filter fun c => c.parent_id.isNone).length)
    ∧ ∀ c ∈ rows, ∀ p, c.parent_id = some p → p ∉ rowIds rows →
        forestHas rows c.id = false := by
  constructor
  · intro _
    rw [buildCommentTree]
    have hlen :
        ((buildSt rows).roots.filterMap
            (expandId rows (buildSt rows) (rows.length + 1))).length
          = (buildSt rows).roots.length := by
      apply length_filterMap_of_isSome
      intro j hj
      rcases mem_buildSt_roots hj with ⟨c, hc, hcj, _⟩
      exact expandId_isSome (hcj ▸ List.mem_map_of_mem (·.id) hc)
    rw [hlen, buildSt_roots, List.length_map]
  · intro c hc p hp hpout
    apply forestHas_eq_false
    · intro hroot
      rcases mem_buildSt_roots hroot with ⟨d, hd, hdid, hdnone⟩
      rw [id_inj hnd hd hc hdid, hp] at hdnone
      exact Option.noConfusion hdnone
    · intro q _ hbad
      rcases mem_buildSt_replies hbad with ⟨d, hd, hdid, hdpar, hqids⟩
      rw [id_inj hnd hd hc hdid, hp] at hdpar
      exact hpout ((Option.some.inj hdpar) ▸ hqids)

/-- Witness for C1: on rows where every parent resolves the build returns
two roots, and on the spec's scenario rows the orphan comment 3 is absent
from the forest. -/
theorem assemble_root_count_and_orphan_drop_witness :
    (buildCommentTree resolvedRows).length = 2
      ∧ forestHas scenarioRows 3 = false := by
  constructor
  · have h := (assemble_root_count_and_orphan_drop resolvedRows (by decide)).1
      (by decide)
    rw [h]
    decide
  · exact (assemble_root_count_and_orphan_drop scenarioRows (by decide)).2
      (sample 3 (some 99)) (by decide) 99 rfl (by decide)

/-- C2: the tree build preserves input order among siblings: the root ids
are exactly the null-parent comments' ids in input order, and every node's
reply-id list is a sublist of the input-ordered list of comments naming it
as parent (so two siblings never swap their relative order). -/
theorem assemble_sibling_order (rows : List Comment) :
    (buildCommentTree rows).map (fun n => n.comment.id)
        = (rows.filter fun c => c.parent_id.isNone).map (·.id)
    ∧ ∀ m ∈ allNodesList (buildCommentTree rows),
        (m.repliesIds).Sublist
          ((rows.filter fun c => c.parent_id == some m.comment.id).map (·.id)) := by
  constructor
  · rw [buildCommentTree, ← buildSt_roots]
    apply filterMap_map_eq
    · intro j hj
      rcases mem_buildSt_roots hj with ⟨c, hc, hcj, _⟩
      exact expandId_isSome (hcj ▸ List.mem_map_of_mem (·.id) hc)
    · intro j _ n hn
      exact expandId_comment_id hn
  · intro m hm
    rcases mem_allNodesList.mp hm with ⟨n, hn, hmn⟩
    rcases List.mem_filterMap.mp hn with ⟨j, _, hjn⟩
    exact (expand_allNodes_replies _ j n hjn m hmn).trans
      (buildSt_replies_sublist rows _)

/-- C9: a comment whose `parent_id` equals its own id appears nowhere in
the forest (the first pass does index it, so the second pass pushes it onto
its own replies list, a cycle unreachable from every root). -/
theorem self_parent_never_in_forest (rows : List Comment)
    (hnd : (rowIds rows).Nodup) :
    ∀ c ∈ rows, c.parent_id = some c.id → forestHas rows c.id = false := by
  intro c hc hp
  apply forestHas_eq_false
  · intro hroot
    rcases mem_buildSt_roots hroot with ⟨d, hd, hdid, hdnone⟩
    rw [id_inj hnd hd hc hdid, hp] at hdnone
    exact Option.noConfusion hdnone
  · intro q hq hbad
    rcases mem_buildSt_replies hbad with ⟨d, hd, hdid, hdpar, _⟩
    rw [id_inj hnd hd hc hdid, hp] at hdpar
    exact hq (Option.some.inj hdpar).symm

/-- Witness for C9: in the rows with the self-referencing comment 2, id 2
is absent from the assembled forest. -/
theorem self_parent_never_in_forest_witness :
    forestHas selfRows 2 = false :=
  self_parent_never_in_forest selfRows (by decide) (sample 2 (some 2)) (by decide) rfl

/-! ## Moderation: approve and the state machine -/

theorem setStatusRow_id (i : Nat) (st : CStatus) (d : Comment) :
    (setStatusRow i st d).id = d.id := by
  simp only [setStatusRow]
  by_cases hd : (d.id == i) = true
  · rw [if_pos hd]
  · rw [if_neg hd]

theorem setStatusRow_idem (i : Nat) (st : CStatus) (d : Comment) :
    setStatusRow i st (setStatusRow i st d) = setStatusRow i st d := by
  simp only [setStatusRow]
  by_cases hd : (d.id == i) = true
  · rw [if_pos hd, if_pos hd]
  · rw [if_neg hd, if_neg hd]

theorem find?_map_setStatusRow (l : List Comment) (i : Nat) (st : CStatus) :
    (l.map (setStatusRow i st)).find? (fun d => d.id == i)
      = (l.find? fun d => d.id == i).map (setStatusRow i st) := by
  have h : ((fun d : Comment => d.id == i) ∘ setStatusRow i st)
      = fun d : Comment => d.id == i := by
    funext d
    show ((setStatusRow i st d).id == i) = (d.id == i)
    rw [setStatusRow_id]
  rw [List.find?_map, h]

theorem updateCommentStatus_found {db : DB} {i : Nat} {s : String} {st : CStatus} {c : Comment}
    (hs : parseStatus s = some st)
    (hf : db.comments.find? (fun d => d.id == i) = some c) :
    updateCommentStatus db i s
      = (Resp.okComment { c with status := st },
          { db with comments := db.comments.map (setStatusRow i st) }) := by
  rw [updateCommentStatus, hf, hs]

theorem updateCommentStatus_missing {db : DB} {i : Nat} {s : String}
    (hf : db.comments.find? (fun d => d.id == i) = none) :
    updateCommentStatus db i s = (Resp.err 404 "Comment not found", db) := by
  rw [updateCommentStatus, hf]

/-- C5: the approve action 404s exactly when no comment has the id; on an
existing comment it answers 200 with the row set to Approved, stores that
row, and applied a second time it succeeds again with the same answer and
changes nothing — idempotent, no error on the repeat, a Pending comment
becoming Approved and an Approved one staying Approved. -/
theorem approve_contract (db : DB) (i : Nat) :
    (db.comments.find? (fun c => c.id == i) = none →
        (approveComment db i).1 = Resp.err 404 "Comment not found"
          ∧ (approveComment db i).2 = db)
    ∧ ∀ c, db.comments.find? (fun c => c.id == i) = some c →
        (approveComment db i).1 = Resp.okComment { c with status := CStatus.approved }
          ∧ (approveComment db i).2.comments.find? (fun d => d.id == i)
              = some { c with status := CStatus.approved }
          ∧ (approveComment (approveComment db i).2 i).1
              = Resp.okComment { c with status := CStatus.approved }
          ∧ (approveComment (approveComment db i).2 i).2 = (approveComment db i).2 := by
  have hps : parseStatus "approved" = some CStatus.approved := by decide
  constructor
  · intro hf
    rw [approveComment, updateCommentStatus_missing hf]
    exact ⟨rfl, rfl⟩
  · intro c hf
    have hci' := List.find?_some hf
    have hci : (c.id == i) = true := hci'
    have hgc : setStatusRow i CStatus.approved c = { c with status := CStatus.approved } := by
      simp only [setStatusRow]
      rw [if_pos hci]
    have h1 : approveComment db i
        = (Resp.okComment { c with status := CStatus.approved },
            { db with comments := db.comments.map (setStatusRow i CStatus.approved) }) := by
      rw [approveComment, updateCommentStatus_found hps hf]
    have hfind : (db.comments.map (setStatusRow i CStatus.approved)).find?
          (fun d => d.id == i) = some { c with status := CStatus.approved } := by
      rw [find?_map_setStatusRow, hf, Option.map_some', hgc]
    have hmapmap : (db.comments.map (setStatusRow i CStatus.approved)).map
          (setStatusRow i CStatus.approved)
        = db.comments.map (setStatusRow i CStatus.approved) := by
      rw [List.map_map]
      apply List.map_congr_left
      intro d _
      exact setStatusRow_idem i CStatus.approved d
    have h2 : approveComment { db with
          comments := db.comments.map (setStatusRow i CStatus.approved) } i
        = (Resp.okComment { c with status := CStatus.approved },
            { db with comments := db.comments.map (setStatusRow i CStatus.approved) }) := by
      rw [approveComment, updateCommentStatus_found hps hfind, hmapmap]
    refine ⟨by rw [h1], by rw [h1]; exact hfind, ?_, ?_⟩
    · rw [h1]
      show (approveComment { db with
          comments := db.comments.map (setStatusRow i CStatus.approved) } i).1 = _
      rw [h2]
    · rw [h1]
      show (approveComment { db with
          comments := db.comments.map (setStatusRow i CStatus.approved) } i).2 = _
      rw [h2]

/-- Witness for C5: approving the missing id 99 404s; approving comment 2
twice answers 200 with the Approved row both times. -/
theorem approve_contract_witness :
    (approveComment sampleDb 99).1 = Resp.err 404 "Comment not found"
      ∧ (approveComment sampleDb 2).1
          = Resp.okComment { sample 2 (some 1) with status := CStatus.approved }
      ∧ (approveComment (approveComment sampleDb 2).2 2).1
          = Resp.okComment { sample 2 (some 1) with status := CStatus.approved } := by
  refine ⟨((approve_contract sampleDb 99).1 rfl).1, ?_, ?_⟩
  · exact ((approve_contract sampleDb 2).2 (sample 2 (some 1)) rfl).1
  · exact ((approve_contract sampleDb 2).2 (sample 2 (some 1)) rfl).2.2.1

/-- Counterexample for C4: comment 1 is Approved, yet one status-update
request carrying `pending` succeeds (200) and moves it back to Pending. -/
theorem approved_back_to_pending_counterexample :
    (sampleDb.comments.find? (fun c => c.id == 1)).map (·.status)
        = some CStatus.approved
      ∧ (updateCommentStatus sampleDb 1 "pending").1
          = Resp.okComment { sample 1 none with status := CStatus.pending }
      ∧ ((updateCommentStatus sampleDb 1 "pending").2.comments.find?
            (fun c => c.id == 1)).map (·.status) = some CStatus.pending := by
  exact ⟨rfl, rfl, rfl⟩

theorem setStatusRow_mem_status {i : Nat} {st : CStatus} {l : List Comment} {c : Comment}
    (hc : c ∈ l.map (setStatusRow i st)) : c.status = st ∨ c ∈ l := by
  rcases List.mem_map.mp hc with ⟨d, hd, hdc⟩
  rw [← hdc]
  simp only [setStatusRow]
  by_cases hdi : (d.id == i) = true
  · rw [if_pos hdi]
    exact Or.inl rfl
  · rw [if_neg hdi]
    exact Or.inr hd

/-- The update endpoint with a non-`pending` status preserves the
invariant that no row of a given id is Pending. -/
theorem updateStatus_no_pending {db : DB} {j i : Nat} {s : String} {st : CStatus}
    (hs : parseStatus s = some st) (hst : st ≠ CStatus.pending)
    (h : ∀ c ∈ db.comments, c.id = i → c.status ≠ CStatus.pending) :
    ∀ c ∈ (updateCommentStatus db j s).2.comments, c.id = i →
      c.status ≠ CStatus.pending := by
  cases hf : db.comments.find? (fun d => d.id == j) with
  | none =>
      rw [updateCommentStatus_missing hf]
      exact h
  | some c0 =>
      rw [updateCommentStatus_found hs hf]
      intro c hc hci
      rcases setStatusRow_mem_status hc with hcs | hcl
      · rw [hcs]
        exact hst
      · exact h c hcl hci

/-- C4 amended: under the moderation operations actually offered (approve,
mark-spam, mark-deleted, cascade remove — the admin client issues approve
and remove), a comment whose rows are not Pending never returns to
Pending; yet the raw update endpoint itself accepts `pending`, so an
Approved comment can be moved back (see the counterexample). -/
theorem mod_ops_never_repending (db : DB) (i : Nat) (ops : List ModOp)
    (h : ∀ c ∈ db.comments, c.id = i → c.status ≠ CStatus.pending) :
    ∀ c ∈ (applyOps db ops).comments, c.id = i → c.status ≠ CStatus.pending := by
  induction ops generalizing db with
  | nil => exact h
  | cons op ops ih =>
      rw [applyOps, List.foldl_cons]
      apply ih
      cases op with
      | approve j =>
          have hs : parseStatus "approved" = some CStatus.approved := by decide
          exact updateStatus_no_pending hs (fun hx => CStatus.noConfusion hx) h
      | markSpam j =>
          have hs : parseStatus "spam" = some CStatus.spam := by decide
          exact updateStatus_no_pending hs (fun hx => CStatus.noConfusion hx) h
      | markDeleted j =>
          have hs : parseStatus "deleted" = some CStatus.deleted := by decide
          exact updateStatus_no_pending hs (fun hx => CStatus.noConfusion hx) h
      | remove j =>
          intro c hc hci
          have hc' : c ∈ db.comments.filter
              (fun d => !(deadClosure db.comments j).contains d.id) := hc
          exact h c (List.mem_of_mem_filter hc') hci

/-- Witness for C4 amended: after marking comment 1 spam and approving
comment 3, comment 1 is not Pending. -/
theorem mod_ops_never_repending_witness :
    ((applyOps sampleDb [ModOp.markSpam 1, ModOp.approve 3]).comments.find?
        (fun c => c.id == 1)).map (·.status) ≠ some CStatus.pending := by
  intro heq
  rcases Option.map_eq_some'.mp heq with ⟨c, hc, hcs⟩
  have hc1' := List.find?_some hc
  have hc1 : (c.id == 1) = true := hc1'
  exact mod_ops_never_repending sampleDb 1 [ModOp.markSpam 1, ModOp.approve 3]
    (by decide) c (List.mem_of_find?_eq_some hc)
    (beq_iff_eq.mp hc1) hcs

/-! ## Read Endpoint resolution -/

/-- Counterexample for C7: the UUID-shaped reference 42 matches no post of
the sample database, yet the read endpoint answers 200 with an empty
forest instead of 404 — exactly the answer it gives for the existing post
2, which has zero approved comments. -/
theorem read_unresolved_uuid_counterexample :
    sampleDb.posts.all (fun p => p.id != 42) = true
      ∧ getComments sampleDb (PostRef.byId 42) = Resp.ok []
      ∧ getComments sampleDb (PostRef.byId 2) = Resp.ok [] :=
  ⟨rfl, rfl, rfl⟩

/-- C7 amended: only a slug-shaped reference can 404, exactly when no post
carries the slug; a UUID-shaped reference is never checked against the
posts table, the endpoint answering 200 with the forest of whatever
approved rows carry that post id — an empty forest when the post does not
exist, indistinguishable from an existing post with no approved comments. -/
theorem getComments_resolution (db : DB) :
    (∀ s, findPostBySlug db s = none →
        getComments db (PostRef.bySlug s) = Resp.err 404 "Post not found")
    ∧ (∀ s p, findPostBySlug db s = some p →
        getComments db (PostRef.bySlug s)
          = Resp.ok (buildCommentTree (approvedRows db p.id)))
    ∧ (∀ i, getComments db (PostRef.byId i)
        = Resp.ok (buildCommentTree (approvedRows db i)))
    ∧ (∀ i, approvedRows db i = [] →
        getComments db (PostRef.byId i) = Resp.ok []) := by
  refine ⟨?_, ?_, ?_, ?_⟩
  · intro s hs
    rw [getComments, hs]
  · intro s p hp
    rw [getComments, hp]
  · intro i
    rfl
  · intro i hi
    show Resp.ok (buildCommentTree (approvedRows db i)) = Resp.ok []
    rw [hi]
    rfl

/-- Witness for C7 amended: an unknown slug 404s, the known slug returns
the post-1 forest, and an unknown UUID-shaped id returns the empty
forest. -/
theorem getComments_resolution_witness :
    getComments sampleDb (PostRef.bySlug "no-such-slug") = Resp.err 404 "Post not found"
      ∧ getComments sampleDb (PostRef.bySlug "hello-world")
          = Resp.ok (buildCommentTree (approvedRows sampleDb 1))
      ∧ getComments sampleDb (PostRef.byId 42) = Resp.ok [] := by
  refine ⟨(getComments_resolution sampleDb).1 "no-such-slug" rfl, ?_, ?_⟩
  · exact (getComments_resolution sampleDb).2.1 "hello-world" ⟨1, "hello-world"⟩ rfl
  · exact (getComments_resolution sampleDb).2.2.2 42 rfl

/-! ## Submission Handler -/

/-- With validation, post resolution and both foreign keys satisfied, the
submission handler answers 201 and appends exactly the inserted row. -/
theorem postComment_success {db : DB} {ref : PostRef} {b : ReqBody} {pid : Nat}
    (hv : validComment b = true) (hpid : resolvePost db ref = some pid)
    (hfk : parentFkOk db b = true) (hu : userFkOk db b = true) :
    postComment db ref b
      = (Resp.created (insertedRow db pid b),
          { db with comments := db.comments ++ [insertedRow db pid b],
                    nextId := db.nextId + 1 }) := by
  rw [postComment, hv, hpid]
  show (if parentFkOk db b && userFkOk db b then _ else _) = _
  rw [hfk, hu]
  rfl

/-- With validation and post resolution passed but a foreign key violated,
the insert throws and the handler answers 500 leaving the store unchanged. -/
theorem postComment_fk_fail {db : DB} {ref : PostRef} {b : ReqBody} {pid : Nat}
    (hv : validComment b = true) (hpid : resolvePost db ref = some pid)
    (hfk : (parentFkOk db b && userFkOk db b) = false) :
    postComment db ref b = (Resp.err 500 "Internal server error", db) := by
  rw [postComment, hv, hpid]
  show (if parentFkOk db b && userFkOk db b then _ else _) = _
  rw [hfk]
  rfl

/-- A failing validation makes the handler answer 400 with the fixed
message, before any storage interaction. -/
theorem postComment_invalid {db : DB} {ref : PostRef} {b : ReqBody}
    (hv : validComment b = false) :
    postComment db ref b = (Resp.err 400 "Invalid input", db) := by
  rw [postComment, hv]
  rfl

/-- Counterexample for C8: an empty author name and an empty content both
produce the identical fixed 400 body `Invalid input` — the response names
no field — and a whitespace-only author name is not rejected at all: the
emptiness check runs on the raw value, trimming happens afterwards, and
the row is stored with an empty trimmed name. -/
theorem validation_generic_message_counterexample :
    (postComment sampleDb (PostRef.byId 1)
        { sampleBody with author_name := some "" }).1 = Resp.err 400 "Invalid input"
      ∧ (postComment sampleDb (PostRef.byId 1)
          { sampleBody with content := some "" }).1 = Resp.err 400 "Invalid input"
      ∧ (postComment sampleDb (PostRef.byId 1)
          { sampleBody with author_name := some " " }).1
          = Resp.created (insertedRow sampleDb 1 { sampleBody with author_name := some " " })
      ∧ (insertedRow sampleDb 1 { sampleBody with author_name := some " " }).author_name
          = "" :=
  ⟨rfl, rfl, rfl, rfl⟩

/-- C8 amended: a missing or empty (pre-trim) author name or content, or a
present but syntactically invalid email, is rejected with 400 before any
storage change, but with the fixed message `Invalid input` that names no
field; emptiness is checked before trimming, so whitespace-only values
pass validation.  A valid body never receives that response. -/
theorem postComment_validation (db : DB) (ref : PostRef) (b : ReqBody) :
    ((b.author_name = none ∨ b.author_name = some "" ∨ b.content = none
        ∨ b.content = some ""
        ∨ ∃ e, b.author_email = some e ∧ emailValid e = false) →
      postComment db ref b = (Resp.err 400 "Invalid input", db))
    ∧ (validComment b = true →
        (postComment db ref b).1 ≠ Resp.err 400 "Invalid input") := by
  constructor
  · intro hbad
    apply postComment_invalid
    rcases hbad with h | h | h | h | ⟨e, he, hev⟩
    · simp [validComment, h]
    · simp [validComment, h]
      intro hx _
      exact absurd hx (by decide)
    · simp [validComment, h]
    · simp [validComment, h]
      intro _ _
      decide
    · simp [validComment, he, hev]
  · intro hv heq
    cases hres : resolvePost db ref with
    | none =>
        rw [postComment, hv, hres] at heq
        simp at heq
    | some pid =>
        cases hfk : parentFkOk db b && userFkOk db b with
        | true =>
            rw [postComment_success hv hres (Bool.and_elim_left hfk)
              (Bool.and_elim_right hfk)] at heq
            exact Resp.noConfusion heq
        | false =>
            rw [postComment_fk_fail hv hres hfk] at heq
            simp at heq

/-- Witness for C8 amended: a mail address without domain is rejected with
the generic 400, while the valid sample body is not. -/
theorem postComment_validation_witness :
    postComment sampleDb (PostRef.byId 1) { sampleBody with author_email := some "abc" }
        = (Resp.err 400 "Invalid input", sampleDb)
      ∧ (postComment sampleDb (PostRef.byId 1) sampleBody).1
          ≠ Resp.err 400 "Invalid input" := by
  constructor
  · exact (postComment_validation sampleDb (PostRef.byId 1) _).1
      (Or.inr (Or.inr (Or.inr (Or.inr ⟨"abc", rfl, rfl⟩))))
  · exact (postComment_validation sampleDb (PostRef.byId 1) sampleBody).2 rfl

/-- C10: the stored state of a new comment is decided solely by the
`user_id` field of the unauthenticated request body.  For two submissions
identical except for that field — one carrying the id of some existing
user, the other carrying none — both are accepted, the first persisting as
Approved with that user attached and the second as Pending, the rows
otherwise equal.  `postComment` receives no caller identity at all, so no
check ties the supplied `user_id` to whoever submitted. -/
theorem user_id_decides_initial_state (db : DB) (ref : PostRef) (b : ReqBody)
    (u pid : Nat) (hv : validComment b = true)
    (hpid : resolvePost db ref = some pid)
    (hfk : parentFkOk db b = true) (hu : db.users.contains u = true) :
    (postComment db ref { b with user_id := some u }).1
        = Resp.created (insertedRow db pid { b with user_id := some u })
      ∧ (postComment db ref { b with user_id := none }).1
          = Resp.created (insertedRow db pid { b with user_id := none })
      ∧ (insertedRow db pid { b with user_id := some u }).status = CStatus.approved
      ∧ (insertedRow db pid { b with user_id := none }).status = CStatus.pending
      ∧ insertedRow db pid { b with user_id := none }
          = { insertedRow db pid { b with user_id := some u } with
                status := CStatus.pending, user_id := none } := by
  have h1 : postComment db ref { b with user_id := some u }
      = (Resp.created (insertedRow db pid { b with user_id := some u }), _) :=
    postComment_success hv hpid hfk hu
  have h2 : postComment db ref { b with user_id := none }
      = (Resp.created (insertedRow db pid { b with user_id := none }), _) :=
    postComment_success hv hpid hfk rfl
  exact ⟨by rw [h1], by rw [h2], rfl, rfl, rfl⟩

/-- Witness for C10: the same sample body stored as Approved with user 7
attached when the body claims `user_id` 7, and as Pending without it. -/
theorem user_id_decides_initial_state_witness :
    (postComment sampleDb (PostRef.byId 1) { sampleBody with user_id := some 7 }).1
        = Resp.created (insertedRow sampleDb 1 { sampleBody with user_id := some 7 })
      ∧ (insertedRow sampleDb 1 { sampleBody with user_id := some 7 }).status
          = CStatus.approved
      ∧ (postComment sampleDb (PostRef.byId 1) { sampleBody with user_id := none }).1
          = Resp.created (insertedRow sampleDb 1 { sampleBody with user_id := none })
      ∧ (insertedRow sampleDb 1 { sampleBody with user_id := none }).status
          = CStatus.pending := by
  have h := user_id_decides_initial_state sampleDb (PostRef.byId 1) sampleBody 7 1
    rfl rfl rfl rfl
  exact ⟨h.1, h.2.2.1, h.2.1, h.2.2.2.1⟩

/-- Counterexample for C3: a reply submitted to post 2 whose `parent_id`
names comment 1 — a comment of post 1 — is accepted with 201 and
persisted, though the claim demands a 404/400 rejection with nothing
stored. -/
theorem cross_post_parent_accepted_counterexample :
    (sampleDb.comments.find? (fun c => c.id == 1)).map (·.post_id) = some 1
      ∧ (postComment sampleDb (PostRef.byId 2)
            { sampleBody with parent_id := some 1 }).1
          = Resp.created (insertedRow sampleDb 2 { sampleBody with parent_id := some 1 })
      ∧ (insertedRow sampleDb 2 { sampleBody with parent_id := some 1 }).post_id = 2
      ∧ (postComment sampleDb (PostRef.byId 2)
            { sampleBody with parent_id := some 1 }).2.comments.length
          = sampleDb.comments.length + 1 :=
  ⟨rfl, rfl, rfl, rfl⟩

/-- C3 amended: the handler never compares the parent's post with the
resolved post.  With validation, post resolution and the user foreign key
satisfied, a supplied parent id matching any existing comment — on
whatever post — yields 201 with the row persisted; a parent id matching no
comment at all makes the insert throw, surfaced as a 500 `Internal server
error` (not 404/400) with nothing persisted. -/
theorem postComment_parent_unchecked (db : DB) (ref : PostRef) (b : ReqBody)
    (p pid : Nat) (hv : validComment b = true) (hp : b.parent_id = some p)
    (hpid : resolvePost db ref = some pid) (hu : userFkOk db b = true) :
    ((db.comments.any fun c => c.id == p) = true →
        (postComment db ref b).1 = Resp.created (insertedRow db pid b)
          ∧ (postComment db ref b).2.comments = db.comments ++ [insertedRow db pid b])
      ∧ ((db.comments.any fun c => c.id == p) = false →
          (postComment db ref b).1 = Resp.err 500 "Internal server error"
            ∧ (postComment db ref b).2 = db) := by
  constructor
  · intro hex
    have hfk : parentFkOk db b = true := by
      rw [parentFkOk, hp]
      exact hex
    rw [postComment_success hv hpid hfk hu]
    exact ⟨rfl, rfl⟩
  · intro hex
    have hfk : parentFkOk db b = false := by
      rw [parentFkOk, hp]
      exact hex
    rw [postComment_fk_fail hv hpid (by rw [hfk]; rfl)]
    exact ⟨rfl, rfl⟩

/-- Witness for C3 amended: on the sample database the cross-post parent 1
is accepted into post 2, and the dangling parent 77 is answered with the
500 storage error and no insert. -/
theorem postComment_parent_unchecked_witness :
    (postComment sampleDb (PostRef.byId 2) { sampleBody with parent_id := some 1 }).1
        = Resp.created (insertedRow sampleDb 2 { sampleBody with parent_id := some 1 })
      ∧ (postComment sampleDb (PostRef.byId 2) { sampleBody with parent_id := some 77 }).1
          = Resp.err 500 "Internal server error"
      ∧ (postComment sampleDb (PostRef.byId 2)
            { sampleBody with parent_id := some 77 }).2 = sampleDb := by
  have hok := (postComment_parent_unchecked sampleDb (PostRef.byId 2)
    { sampleBody with parent_id := some 1 } 1 2 rfl rfl rfl rfl).1 rfl
  have hbad := (postComment_parent_unchecked sampleDb (PostRef.byId 2)
    { sampleBody with parent_id := some 77 } 77 2 rfl rfl rfl rfl).2 rfl
  exact ⟨hok.1, hbad.1, hbad.2⟩

/-! ## Cascade deletion -/

theorem natList_contains_iff {l : List Nat} {a : Nat} :
    l.contains a = true ↔ a ∈ l :=
  List.elem_iff

theorem subset_deadStep (cs : List Comment) (dead : List Nat) :
    dead ⊆ deadStep cs dead :=
  List.subset_append_left _ _

theorem subset_deadStep_iterate (cs : List Comment) (dead : List Nat) :
    ∀ n, dead ⊆ (deadStep cs)^[n] dead := by
  intro n
  induction n with
  | zero => exact fun x hx => hx
  | succ n ih =>
      rw [Function.iterate_succ_apply']
      exact fun x hx => subset_deadStep cs _ (ih hx)

theorem mem_deadStep_cases {cs : List Comment} {dead : List Nat} {x : Nat}
    (hx : x ∈ deadStep cs dead) :
    x ∈ dead ∨ ∃ c ∈ cs, c.id = x ∧ c.id ∉ dead ∧
      ∃ p, c.parent_id = some p ∧ p ∈ dead := by
  rcases List.mem_append.mp hx with h | h
  · exact Or.inl h
  · rcases List.mem_map.mp h with ⟨c, hc, hcx⟩
    rcases List.mem_filter.mp hc with ⟨hmem, hq⟩
    rcases Bool.and_eq_true_iff.mp hq with ⟨hnot, hmatch⟩
    rw [Bool.not_eq_true'] at hnot
    refine Or.inr ⟨c, hmem, hcx, ?_, ?_⟩
    · intro hin
      have hcon := natList_contains_iff.mpr hin
      rw [hnot] at hcon
      exact Bool.noConfusion hcon
    · cases hp : c.parent_id with
      | none =>
          rw [hp] at hmatch
          exact Bool.noConfusion hmatch
      | some p =>
          rw [hp] at hmatch
          exact ⟨p, rfl, natList_contains_iff.mp hmatch⟩

theorem deadStep_iterate_sound (cs : List Comment) (i : Nat) :
    ∀ n x, x ∈ (deadStep cs)^[n] [i] → ReachesId cs i x := by
  intro n
  induction n with
  | zero =>
      intro x hx
      rcases List.mem_singleton.mp hx with rfl
      exact ReachesId.start
  | succ n ih =>
      intro x hx
      rw [Function.iterate_succ_apply'] at hx
      rcases mem_deadStep_cases hx with h | ⟨c, hc, hcx, _, p, hp, hpd⟩
      · exact ih x h
      · rw [← hcx]
        exact ReachesId.step p c (ih p hpd) hc hp

theorem deadStep_fixed_iterate {cs : List Comment} {d : List Nat}
    (h : deadStep cs d = d) : ∀ k, (deadStep cs)^[k] d = d := by
  intro k
  induction k with
  | zero => rfl
  | succ k ih => rw [Function.iterate_succ_apply', ih, h]

theorem append_ne_length {α : Type} {d b : List α} (h : d ++ b ≠ d) :
    d.length + 1 ≤ (d ++ b).length := by
  cases b with
  | nil => exact absurd (List.append_nil d) h
  | cons y ys =>
      rw [List.length_append, List.length_cons]
      omega

theorem deadStep_ne_length {cs : List Comment} {d : List Nat}
    (h : deadStep cs d ≠ d) : d.length + 1 ≤ (deadStep cs d).length :=
  append_ne_length h

theorem deadStep_growth (cs : List Comment) (i : Nat) :
    ∀ n, (∀ m, m < n → deadStep cs ((deadStep cs)^[m] [i]) ≠ (deadStep cs)^[m] [i]) →
      n + 1 ≤ ((deadStep cs)^[n] [i]).length := by
  intro n
  induction n with
  | zero => intro _; simp
  | succ n ih =>
      intro h
      have hlen : n + 1 ≤ ((deadStep cs)^[n] [i]).length :=
        ih fun m hm => h m (Nat.lt_succ_of_lt hm)
      have hne := h n (Nat.lt_succ_self n)
      rw [Function.iterate_succ_apply']
      have hstep := deadStep_ne_length hne
      omega

theorem deadStep_nodup {cs : List Comment} {d : List Nat}
    (hnd : (rowIds cs).Nodup) (hd : d.Nodup) : (deadStep cs d).Nodup := by
  rw [deadStep, List.nodup_append]
  refine ⟨hd, ?_, ?_⟩
  · have hsub : ((cs.filter fun c =>
        !d.contains c.id &&
          (match c.parent_id with
            | some p => d.contains p | none => false)).map (·.id)).Sublist (rowIds cs) :=
      (List.filter_sublist cs).map (·.id)
    exact List.Nodup.sublist hsub hnd
  · intro x hxd hxb
    rcases List.mem_map.mp hxb with ⟨c, hc, hcx⟩
    rcases List.mem_filter.mp hc with ⟨_, hq⟩
    rcases Bool.and_eq_true_iff.mp hq with ⟨hnot, _⟩
    rw [Bool.not_eq_true'] at hnot
    rw [← hcx] at hxd
    have hcon := natList_contains_iff.mpr hxd
    rw [hnot] at hcon
    exact Bool.noConfusion hcon

theorem deadStep_subset {cs : List Comment} {d s : List Nat}
    (hd : d ⊆ s) (hids : rowIds cs ⊆ s) : deadStep cs d ⊆ s := by
  intro x hx
  rcases mem_deadStep_cases hx with h | ⟨c, hc, hcx, _, _, _, _⟩
  · exact hd h
  · exact hids (hcx ▸ List.mem_map_of_mem (·.id) hc)

theorem deadStep_iterate_invariant (cs : List Comment) (i : Nat)
    (hnd : (rowIds cs).Nodup) :
    ∀ n, ((deadStep cs)^[n] [i]).Nodup ∧ (deadStep cs)^[n] [i] ⊆ i :: rowIds cs := by
  intro n
  induction n with
  | zero =>
      refine ⟨List.nodup_singleton i, ?_⟩
      intro x hx
      rcases List.mem_singleton.mp hx with rfl
      exact List.mem_cons_self _ _
  | succ n ih =>
      rw [Function.iterate_succ_apply']
      exact ⟨deadStep_nodup hnd ih.1,
        deadStep_subset ih.2 fun x hx => List.mem_cons_of_mem i hx⟩

theorem nodup_subset_length {d s : List Nat} (hnd : d.Nodup) (hsub : d ⊆ s) :
    d.length ≤ s.length := by
  calc d.length = d.toFinset.card := (List.toFinset_card_of_nodup hnd).symm
    _ ≤ s.toFinset.card := Finset.card_le_card
        fun x hx => List.mem_toFinset.mpr (hsub (List.mem_toFinset.mp hx))
    _ ≤ s.length := List.toFinset_card_le s

theorem deadClosure_fixed (cs : List Comment) (i : Nat)
    (hnd : (rowIds cs).Nodup) :
    deadStep cs (deadClosure cs i) = deadClosure cs i := by
  by_contra hne
  have hall : ∀ m, m < cs.length + 1 →
      deadStep cs ((deadStep cs)^[m] [i]) ≠ (deadStep cs)^[m] [i] := by
    intro m hm hfix
    apply hne
    have heq : (deadStep cs)^[cs.length + 1] [i] = (deadStep cs)^[m] [i] := by
      have hsplit : cs.length + 1 = (cs.length + 1 - m) + m := by omega
      rw [hsplit, Function.iterate_add_apply]
      exact deadStep_fixed_iterate hfix _
    show deadStep cs ((deadStep cs)^[cs.length + 1] [i])
        = (deadStep cs)^[cs.length + 1] [i]
    rw [heq, hfix]
  have hgrow := deadStep_growth cs i (cs.length + 1) hall
  have hinv := deadStep_iterate_invariant cs i hnd (cs.length + 1)
  have hbound := nodup_subset_length hinv.1 hinv.2
  rw [List.length_cons, rowIds, List.length_map] at hbound
  omega

theorem reaches_mem_deadClosure {cs : List Comment} {i x : Nat}
    (hnd : (rowIds cs).Nodup) (h : ReachesId cs i x) : x ∈ deadClosure cs i := by
  induction h with
  | start => exact subset_deadStep_iterate cs [i] _ (List.mem_singleton.mpr rfl)
  | step p c hp hc hpar ih =>
      by_cases hin : c.id ∈ deadClosure cs i
      · exact hin
      · rw [← deadClosure_fixed cs i hnd]
        rw [deadStep]
        apply List.mem_append.mpr
        right
        apply List.mem_map.mpr
        refine ⟨c, List.mem_filter.mpr ⟨hc, ?_⟩, rfl⟩
        apply Bool.and_eq_true_iff.mpr
        constructor
        · rw [Bool.not_eq_true']
          cases hcon : (deadClosure cs i).contains c.id
          · rfl
          · exact absurd (natList_contains_iff.mp hcon) hin
        · rw [hpar]
          exact natList_contains_iff.mpr ih

theorem anyNodeHas_eq_true {i : Nat} {L : List CNode}
    (h : anyNodeHas i L = true) : ∃ n ∈ L, nodeHas i n = true := by
  induction L with
  | nil => exact Bool.noConfusion h
  | cons n L ih =>
      rw [anyNodeHas] at h
      rcases Bool.or_eq_true_iff.mp h with h | h
      · exact ⟨n, List.mem_cons_self n L, h⟩
      · rcases ih h with ⟨m, hm, hmn⟩
        exact ⟨m, List.mem_cons_of_mem n hm, hmn⟩

theorem expand_nodeHas_mem {rows : List Comment} {st : BuildSt} :
    ∀ fuel i n, expandId rows st fuel i = some n →
      ∀ x, nodeHas x n = true → x ∈ rowIds rows := by
  intro fuel
  induction fuel with
  | zero =>
      intro i n h
      simp [expandId] at h
  | succ fuel ih =>
      intro i n h x hx
      rw [expandId] at h
      rcases Option.map_eq_some'.mp h with ⟨c, hc, hn⟩
      rw [← hn, nodeHas] at hx
      rcases Bool.or_eq_true_iff.mp hx with h1 | h1
      · exact (beq_iff_eq.mp h1) ▸ List.mem_map_of_mem (·.id) (mapGet_eq_id hc).2
      · rcases anyNodeHas_eq_true h1 with ⟨n', hn', hx'⟩
        rcases List.mem_filterMap.mp hn' with ⟨j, _, hjn'⟩
        exact ih j n' hjn' x hx'

theorem forestHas_mem {rows : List Comment} {x : Nat}
    (h : forestHas rows x = true) : x ∈ rowIds rows := by
  rw [forestHas, buildCommentTree] at h
  rcases anyNodeHas_eq_true h with ⟨n, hn, hx⟩
  rcases List.mem_filterMap.mp hn with ⟨j, _, hjn⟩
  exact expand_nodeHas_mem _ j n hjn x hx

theorem forestHas_false_of_not_mem {rows : List Comment} {x : Nat}
    (h : x ∉ rowIds rows) : forestHas rows x = false := by
  cases hf : forestHas rows x
  · rfl
  · exact absurd (forestHas_mem hf) h

/-- Counterexample for C6: no comment of the sample database has id 99,
yet deleting 99 answers the 200 `{success: true}` body — not a 404 — and
removes nothing. -/
theorem delete_missing_no_404_counterexample :
    sampleDb.comments.all (fun c => c.id != 99) = true
      ∧ (deleteComment sampleDb 99).1 = Resp.okSuccess
      ∧ (deleteComment sampleDb 99).2.comments = sampleDb.comments := by
  refine ⟨rfl, rfl, ?_⟩
  decide

/-- C6 amended: deletion always answers success — even for a nonexistent
id, where the claim demanded a 404 — and removes exactly the targeted
comment together with its transitive descendant replies (`ReachesId`), so
N descendants mean N + 1 rows removed; a subsequent read of any post no
longer shows any removed comment. -/
theorem deleteComment_cascade (db : DB) (i : Nat)
    (hnd : (rowIds db.comments).Nodup) :
    (deleteComment db i).1 = Resp.okSuccess
    ∧ (∀ c ∈ db.comments,
        c ∈ (deleteComment db i).2.comments ↔ ¬ ReachesId db.comments i c.id)
    ∧ ∀ c ∈ db.comments, ReachesId db.comments i c.id →
        ∀ pid, forestHas (approvedRows (deleteComment db i).2 pid) c.id = false := by
  have hmem2 : ∀ c : Comment, c ∈ (deleteComment db i).2.comments ↔
      c ∈ db.comments ∧ c.id ∉ deadClosure db.comments i := by
    intro c
    constructor
    · intro hc
      have hc' : c ∈ db.comments.filter
          (fun d => !(deadClosure db.comments i).contains d.id) := hc
      rcases List.mem_filter.mp hc' with ⟨h1, h2⟩
      rw [Bool.not_eq_true'] at h2
      refine ⟨h1, fun hin => ?_⟩
      have hcon := natList_contains_iff.mpr hin
      rw [h2] at hcon
      exact Bool.noConfusion hcon
    · rintro ⟨h1, h2⟩
      show c ∈ db.comments.filter
        (fun d => !(deadClosure db.comments i).contains d.id)
      apply List.mem_filter.mpr
      refine ⟨h1, ?_⟩
      rw [Bool.not_eq_true']
      cases hcon : (deadClosure db.comments i).contains c.id
      · rfl
      · exact absurd (natList_contains_iff.mp hcon) h2
  refine ⟨rfl, ?_, ?_⟩
  · intro c hc
    constructor
    · intro hin hreach
      exact ((hmem2 c).mp hin).2 (reaches_mem_deadClosure hnd hreach)
    · intro hnr
      apply (hmem2 c).mpr
      exact ⟨hc, fun hin =>
        hnr (deadStep_iterate_sound db.comments i (db.comments.length + 1) c.id hin)⟩
  · intro c _ hreach pid
    apply forestHas_false_of_not_mem
    intro hmemids
    rcases List.mem_map.mp hmemids with ⟨d, hd, hdid⟩
    have hd0 : d ∈ (deleteComment db i).2.comments.filter
        (fun x => x.post_id == pid && x.status == CStatus.approved) := hd
    have hd' : d ∈ (deleteComment db i).2.comments := List.mem_of_mem_filter hd0
    apply ((hmem2 d).mp hd').2
    rw [hdid]
    exact reaches_mem_deadClosure hnd hreach

/-- Witness for C6 amended: deleting comment 1 of the sample database
succeeds, removes its grandchild 3, and the subsequent read of post 1
shows no node 3. -/
theorem deleteComment_cascade_witness :
    (deleteComment sampleDb 1).1 = Resp.okSuccess
      ∧ sample 3 (some 2) ∉ (deleteComment sampleDb 1).2.comments
      ∧ forestHas (approvedRows (deleteComment sampleDb 1).2 1) 3 = false := by
  have h := deleteComment_cascade sampleDb 1 (by decide)
  have hr2 : ReachesId sampleDb.comments 1 2 :=
    ReachesId.step 1 (sample 2 (some 1)) ReachesId.start (by decide) rfl
  have hr3 : ReachesId sampleDb.comments 1 3 :=
    ReachesId.step 2 (sample 3 (some 2)) hr2 (by decide) rfl
  refine ⟨h.1, ?_, ?_⟩
  · intro hmem
    exact (h.2.1 (sample 3 (some 2)) (by decide)).mp hmem hr3
  · exact h.2.2 (sample 3 (some 2)) (by decide) hr3 1

end Blog
